import Mathlib

/-!
Verification of the NoteRs document core (src/note.rs).

The Rust source is shallowly embedded as follows.

* Rust `String` values and string slices are modelled as `List Char`; all
  inputs exercised by the specification are ASCII, so byte positions and
  character positions coincide and `usize` positions become `Nat`.
* The node tree (`trait Node` with implementors `MarkdownString` and
  `Section`) is the mutual inductive `Node`/`NodeList` below; dynamic
  dispatch becomes pattern matching.
* Rust methods that can `panic!` (`toggle`/`collapse`/`expand` on a string
  node or with an out-of-range child index) or that report failure by
  returning `false` (`insert`) are modelled with `Option`: `none` is
  panic/failure, `some` carries the mutated tree.  All failure paths of
  `Section::insert` occur before any mutation, so `none` faithfully means
  "tree unchanged, returned false".
* `usize` subtractions in the source are guarded by the surrounding control
  flow (e.g. `cur -= self.level` only runs after `cur < self.level` was
  ruled out), so truncated `Nat` subtraction agrees with the Rust values on
  every reachable path.
* The two regex scanners are embedded by their matching semantics:
  - the heading regex `(?m)^(#+)([^\n]+)$` matches exactly the lines that
    start with `#` and have length ≥ 2 (a line of `n ≥ 2` hashes only is
    matched with `n-1` hashes captured and title `"#"`, because `[^\n]+`
    needs one character and the greedy `#+` backs off by one); every match
    spans a whole line, so `captures_iter` enumerates heading lines in
    order and `parse`, whose slice boundaries all fall on line boundaries,
    is embedded as a recursion over the list of lines of the input
    (`splitNl`), with the spent fuel argument bounding the recursion depth;
  - the inline regexes `\*\*[^\*]+\*\*`, `_[^_]+_` and `@@([\\/A-Za-z0-9_-]+)`
    are embedded by `boldAt`/`italAt`/`linkAt` (match at the head of a
    suffix) and `findPat` (leftmost match); their interiors exclude the
    delimiter character, so the backtracking-free description is exact.
-/

inductive MarkdownType where
  | None
  | Heading
  | Paragraph
  | Bold
  | Italic
  | Link
deriving DecidableEq

mutual

/-- The node tree of src/note.rs: `MarkdownString` leaves and `Section`
nodes (heading text, `expanded` flag, level, markdown type, children). -/
inductive Node where
  | mstring (text : List Char) (mdtype : MarkdownType)
  | sect (heading : List Char) (expanded : Bool) (level : Nat) (mdtype : MarkdownType) (children : NodeList)

/-- `Vec<Box<dyn Node>>` of the source. -/
inductive NodeList where
  | nil
  | cons (n : Node) (ns : NodeList)

end

deriving instance DecidableEq for Node, NodeList

/-- The `MarkdownString` record as returned by `markdown`/`get_node`. -/
structure MarkdownString where
  text : List Char
  mdtype : MarkdownType
deriving DecidableEq

/-- `"#".repeat(level)`: the hash run emitted in front of a heading. -/
def hashRun (n : Nat) : List Char := List.replicate n '#'

/-- Rust `String::insert_str(pos, t)` (callers always have `pos ≤ s.length`). -/
def strSplice (s : List Char) (pos : Nat) (t : List Char) : List Char :=
  s.take pos ++ t ++ s.drop pos

def NodeList.append : NodeList → NodeList → NodeList
  | .nil, bs => bs
  | .cons n ns, bs => .cons n (ns.append bs)

mutual

/-- `Node::len(flatten)`: character count of the serialization; children are
only counted when the section is expanded or `flatten` is set, and the
hash run plus heading only when `level > 0`. -/
def Node.len : Node → Bool → Nat
  | .mstring t _, _ => t.length
  | .sect h e lv _ cs, fl =>
    (if 0 < lv then lv + h.length else 0) + (if e || fl then cs.lensum fl else 0)

def NodeList.lensum : NodeList → Bool → Nat
  | .nil, _ => 0
  | .cons n ns, fl => n.len fl + ns.lensum fl

end

mutual

/-- `Node::string(full)`: the serialization; hash run, heading, then the
children when `full || expanded`. -/
def Node.string : Node → Bool → List Char
  | .mstring t _, _ => t
  | .sect h e lv _ cs, full =>
    hashRun lv ++ h ++ (if full || e then cs.strings full else [])

def NodeList.strings : NodeList → Bool → List Char
  | .nil, _ => []
  | .cons n ns, full => n.string full ++ ns.strings full

end

mutual

/-- `Node::insert(text, pos)`: the fast-path in-place splice.  `none` models
the Rust `false` return (all failure paths occur before any mutation). -/
def Node.insert : Node → List Char → Nat → Option Node
  | .mstring t ty, text, pos => some (.mstring (strSplice t pos text) ty)
  | .sect h e lv ty cs, text, pos =>
    if 0 < lv then
      if pos < lv then none
      else if pos - lv < h.length then some (.sect (strSplice h (pos - lv) text) e lv ty cs)
      else (cs.insertKids text (pos - lv - h.length)).map (fun cs2 => .sect h e lv ty cs2)
    else (cs.insertKids text pos).map (fun cs2 => .sect h e lv ty cs2)

def NodeList.insertKids : NodeList → List Char → Nat → Option NodeList
  | .nil, _, _ => none
  | .cons n ns, text, pos =>
    if pos < n.len false then (n.insert text pos).map (fun n2 => .cons n2 ns)
    else (ns.insertKids text (pos - n.len false)).map (fun ns2 => .cons n ns2)

end

mutual

/-- `Node::translate(pos)`: display position to full position.  Note the
source initializes `cur` to `level + 1 + heading.len()` (one more than the
heading region) before walking the children. -/
def Node.translate : Node → Nat → Nat
  | .mstring _ _, pos => pos
  | .sect h e lv _ cs, pos =>
    if 0 < lv ∧ pos < lv + 1 + h.length then pos
    else if e then cs.transKids pos (if 0 < lv then lv + 1 + h.length else 0) 0
    else pos

def NodeList.transKids : NodeList → Nat → Nat → Nat → Nat
  | .nil, pos, _, offs => pos + offs
  | .cons n ns, pos, cur, offs =>
    if pos - cur < n.len false then n.translate (pos - cur) + cur + offs
    else ns.transKids pos (cur + n.len false) (offs + (n.len true - n.len false))

end

mutual

/-- `Node::inv_translate(pos)`: full position to display position.  A
collapsed section maps every position at or past its heading to
`level + heading.len() - 1` (the heading's trailing newline). -/
def Node.inv_translate : Node → Nat → Nat
  | .mstring _ _, pos => pos
  | .sect h e lv _ cs, pos =>
    if 0 < lv ∧ pos < lv + h.length then pos
    else if e then cs.invKids pos (if 0 < lv then lv + h.length else 0) 0
    else (if 0 < lv then lv + h.length else 0) - 1

def NodeList.invKids : NodeList → Nat → Nat → Nat → Nat
  | .nil, _, cur, offs => cur - offs
  | .cons n ns, pos, cur, offs =>
    if pos - cur < n.len true then n.inv_translate (pos - cur) + cur - offs
    else ns.invKids pos (cur + n.len true) (offs + (n.len true - n.len false))

end

mutual

/-- `Node::toggle(path)`.  `none` models a panic (`toggle` on a string node,
or a child index out of range); the empty path flips `expanded` unless the
section is the level-0 root. -/
def Node.toggle : Node → List Nat → Option Node
  | .mstring _ _, _ => none
  | .sect h e lv ty cs, [] =>
    if lv = 0 then some (.sect h e lv ty cs) else some (.sect h (!e) lv ty cs)
  | .sect h e lv ty cs, i :: rest =>
    (cs.toggleKids i rest).map (fun cs2 => .sect h e lv ty cs2)

def NodeList.toggleKids : NodeList → Nat → List Nat → Option NodeList
  | .nil, _, _ => none
  | .cons n ns, 0, rest => (n.toggle rest).map (fun n2 => .cons n2 ns)
  | .cons n ns, i+1, rest => (ns.toggleKids i rest).map (fun ns2 => .cons n ns2)

end

mutual

/-- `Node::collapse(path)`: unconditionally clears `expanded` at the empty
path (no level-0 guard, unlike `toggle`). -/
def Node.collapse : Node → List Nat → Option Node
  | .mstring _ _, _ => none
  | .sect h _ lv ty cs, [] => some (.sect h false lv ty cs)
  | .sect h e lv ty cs, i :: rest =>
    (cs.collapseKids i rest).map (fun cs2 => .sect h e lv ty cs2)

def NodeList.collapseKids : NodeList → Nat → List Nat → Option NodeList
  | .nil, _, _ => none
  | .cons n ns, 0, rest => (n.collapse rest).map (fun n2 => .cons n2 ns)
  | .cons n ns, i+1, rest => (ns.collapseKids i rest).map (fun ns2 => .cons n ns2)

end

mutual

/-- `Node::expand(path)`: unconditionally sets `expanded` at the empty path. -/
def Node.expand : Node → List Nat → Option Node
  | .mstring _ _, _ => none
  | .sect h _ lv ty cs, [] => some (.sect h true lv ty cs)
  | .sect h e lv ty cs, i :: rest =>
    (cs.expandKids i rest).map (fun cs2 => .sect h e lv ty cs2)

def NodeList.expandKids : NodeList → Nat → List Nat → Option NodeList
  | .nil, _, _ => none
  | .cons n ns, 0, rest => (n.expand rest).map (fun n2 => .cons n2 ns)
  | .cons n ns, i+1, rest => (ns.expandKids i rest).map (fun ns2 => .cons n ns2)

end

mutual

/-- `Node::markdown()`: a section contributes a Heading-typed span holding
its hash run and heading, then (when expanded) its children's spans. -/
def Node.markdown : Node → List MarkdownString
  | .mstring t ty => [⟨t, ty⟩]
  | .sect h e lv _ cs => ⟨hashRun lv ++ h, .Heading⟩ :: (if e then cs.markdownKids else [])

def NodeList.markdownKids : NodeList → List MarkdownString
  | .nil => []
  | .cons n ns => n.markdown ++ ns.markdownKids

end

/-- Concatenation of the `text` fields of a span list. -/
def mdTexts : List MarkdownString → List Char
  | [] => []
  | m :: ms => m.text ++ mdTexts ms

/-- Observer: the `expanded` flag of the node (strings report `true`). -/
def Node.expandedB : Node → Bool
  | .mstring _ _ => true
  | .sect _ e _ _ _ => e

def NodeList.getKid : NodeList → Nat → Option Node
  | .nil, _ => none
  | .cons n _, 0 => some n
  | .cons _ ns, i+1 => ns.getKid i

/-- Observer: follow a child path and read the `expanded` flag there. -/
def Node.expandedAt : Node → List Nat → Option Bool
  | .mstring _ _, _ => none
  | .sect _ e _ _ _, [] => some e
  | .sect _ _ _ _ cs, i :: rest => (cs.getKid i).bind (fun n => n.expandedAt rest)

mutual

/-- "The subtree contains no collapsed descendant": every section in the
subtree, including the node itself, has `expanded = true`. -/
def Node.noCollapsed : Node → Bool
  | .mstring _ _ => true
  | .sect _ e _ _ cs => e && cs.noCollapsedAll

def NodeList.noCollapsedAll : NodeList → Bool
  | .nil => true
  | .cons n ns => n.noCollapsed && ns.noCollapsedAll

end

mutual

/-- Characterization of `len(false) = len(true)`: every collapsed section in
the subtree hides no content (its children have total full length 0). -/
def Node.hidesNothing : Node → Bool
  | .mstring _ _ => true
  | .sect _ e _ _ cs => if e then cs.hidesNothingAll else cs.lensum true == 0

def NodeList.hidesNothingAll : NodeList → Bool
  | .nil => true
  | .cons n ns => n.hidesNothing && ns.hidesNothingAll

end

/-! ## The inline classifier (`parse_strings`) -/

/-- Character class of the link regex: `[\\/A-Za-z0-9_-]`. -/
def isLinkChar (c : Char) : Bool :=
  c.isAlpha || c.isDigit || c == '_' || c == '-' || c == '/' || c == '\\'

/-- The first two characters both equal `c`. -/
def twoOf (c : Char) : List Char → Bool
  | c1 :: c2 :: _ => c1 == c && c2 == c
  | _ => false

/-- The first character equals `c`. -/
def headIs (c : Char) : List Char → Bool
  | c1 :: _ => c1 == c
  | _ => false

/-- Match of `\*\*[^\*]+\*\*` at the head of `t` (length of the match):
two stars, a maximal nonempty star-free run, two stars. -/
def boldAt (t : List Char) : Option Nat :=
  if twoOf '*' t then
    if ((t.drop 2).takeWhile (· != '*')).length = 0 then none
    else if twoOf '*' ((t.drop 2).drop ((t.drop 2).takeWhile (· != '*')).length) then
      some (((t.drop 2).takeWhile (· != '*')).length + 4)
    else none
  else none

/-- Match of `_[^_]+_` at the head of `t` (length of the match). -/
def italAt (t : List Char) : Option Nat :=
  if headIs '_' t then
    if ((t.drop 1).takeWhile (· != '_')).length = 0 then none
    else if headIs '_' ((t.drop 1).drop ((t.drop 1).takeWhile (· != '_')).length) then
      some (((t.drop 1).takeWhile (· != '_')).length + 2)
    else none
  else none

/-- Match of `@@([\\/A-Za-z0-9_-]+)` at the head of `t` (length of the match
including the `@@` marker, as in `Regex::find`). -/
def linkAt (t : List Char) : Option Nat :=
  if twoOf '@' t then
    if ((t.drop 2).takeWhile isLinkChar).length = 0 then none
    else some (((t.drop 2).takeWhile isLinkChar).length + 2)
  else none

/-- `Regex::find`: leftmost match, returned as a half-open range. -/
def findPat (pat : List Char → Option Nat) : List Char → Option (Nat × Nat)
  | [] => (pat []).map (fun l => (0, l))
  | c :: rest =>
    match pat (c :: rest) with
    | some l => some (0, l)
    | none => (findPat pat rest).map (fun p => (p.1 + 1, p.2 + 1))

/-- One step of the `first_match` selection loop of `parse_strings`: a new
candidate replaces the current one unless the current one starts strictly
earlier. -/
def pickMatch (acc : Option (Nat × Nat × MarkdownType)) (cand : Option (Nat × Nat))
    (ty : MarkdownType) : Option (Nat × Nat × MarkdownType) :=
  match cand, acc with
  | none, _ => acc
  | some (s, e), some (s0, e0, ty0) => if s0 < s then some (s0, e0, ty0) else some (s, e, ty)
  | some (s, e), none => some (s, e, ty)

/-- The `first_match` computation: the three regexes tried in order
bold, italic, link. -/
def firstMatch (t : List Char) : Option (Nat × Nat × MarkdownType) :=
  pickMatch (pickMatch (pickMatch none (findPat boldAt t) .Bold) (findPat italAt t) .Italic)
    (findPat linkAt t) .Link

/-- The rerun loop of `parse_strings` on one line chunk: split off leading
plain text and the first typed match, continue on the remainder; emit the
remainder as a paragraph when no match is left.  The fuel argument bounds
the iteration count (each iteration removes at least 3 characters). -/
def classifyF : Nat → List Char → NodeList
  | 0, _ => .nil
  | f+1, t =>
    match firstMatch t with
    | none => if t.length = 0 then .nil else .cons (.mstring t .Paragraph) .nil
    | some (s, e, ty) =>
      let pre : NodeList := if 0 < s then .cons (.mstring (t.take s) .Paragraph) .nil else .nil
      pre.append (.cons (.mstring ((t.drop s).take (e - s)) ty) (classifyF f (t.drop e)))

def classify (t : List Char) : NodeList := classifyF (t.length + 1) t

/-- Rust `text.split('\n')`: the list of lines, one more than the number of
newline characters. -/
def splitNl : List Char → List (List Char)
  | [] => [[]]
  | c :: rest =>
    if c = '\n' then [] :: splitNl rest
    else
      match splitNl rest with
      | [] => [[c]]
      | l :: ls => (c :: l) :: ls

/-- Inverse of `splitNl`: rejoin lines with newlines. -/
def joinNl : List (List Char) → List Char
  | [] => []
  | [l] => l
  | l :: ls => l ++ '\n' :: joinNl ls

/-- Lines, each with its newline restored (the text before a heading line). -/
def joinNlT : List (List Char) → List Char
  | [] => []
  | l :: ls => l ++ '\n' :: joinNlT ls

/-- The per-line chunks scanned by `parse_strings`: every line except the
last gets its newline back. -/
def chunksOf : List (List Char) → List (List Char)
  | [] => []
  | [l] => [l]
  | l :: ls => (l ++ ['\n']) :: chunksOf ls

/-- `parse_strings` on a text given as its list of lines. -/
def parseStringsLines (ls : List (List Char)) : NodeList :=
  (chunksOf ls).foldr (fun c acc => (classify c).append acc) .nil

/-- `parse_strings(text)` of the source. -/
def parse_strings (t : List Char) : NodeList := parseStringsLines (splitNl t)

/-! ## The block parser (`parse`) -/

/-- Lines matched by `(?m)^(#+)([^\n]+)$`: start with `#`, length ≥ 2. -/
def isHeadingLine (l : List Char) : Bool :=
  headIs '#' l && decide (2 ≤ l.length)

/-- Length of the leading hash run. -/
def headingLevel (l : List Char) : Nat := (l.takeWhile (· == '#')).length

/-- Captured (level, title) of a heading line: the greedy `#+` backs off by
one hash when the line is hashes only, since `[^\n]+` needs a character. -/
def headingParts (l : List Char) : Nat × List Char :=
  let h := headingLevel l
  if h = l.length then (h - 1, ['#']) else (h, l.drop h)

/-- A match at level `≤ lv`, i.e. one the scanning loop of `parse` does not
skip while the active level is `lv`. -/
def isBreakLine (lv : Nat) (l : List Char) : Bool :=
  isHeadingLine l && decide ((headingParts l).1 ≤ lv)

/-- First line satisfying `p`, split as (lines before, line, lines after). -/
def findHdg (p : List Char → Bool) : List (List Char) → Option (List (List Char) × List Char × List (List Char))
  | [] => none
  | l :: ls =>
    if p l then some ([], l, ls)
    else (findHdg p ls).map (fun x => (l :: x.1, x.2.1, x.2.2))

/-- Fuel measure: length of the rejoined text plus one per line. -/
def lineMeasure : List (List Char) → Nat
  | [] => 0
  | l :: ls => l.length + 1 + lineMeasure ls

mutual

/-- `parse(text)` on the list of lines of `text`.  No heading line: the
whole input goes to the inline classifier.  Otherwise the text before the
first heading is classified (`range.start > 0` iff some line precedes it)
and the scan continues with that heading as the pending section.  A heading
immediately followed by a newline (i.e. not the last line) absorbs it into
the stored heading string.  `parseLinesF []` = `parseLinesF [[]]` = `.nil`,
so the empty tail slice needs no special case. -/
def parseLinesF : Nat → List (List Char) → NodeList
  | 0, _ => .nil
  | f+1, ls =>
    match findHdg isHeadingLine ls with
    | none => parseStringsLines ls
    | some (pre, l, post) =>
      let lv := (headingParts l).1
      let title := (headingParts l).2
      let heading := if post.isEmpty then title else title ++ ['\n']
      (if pre.isEmpty then .nil else parseStringsLines (pre ++ [[]])).append
        (parseAuxF f post lv heading)

/-- The scanning loop of `parse` after the first heading: `rest` is the
lines after the pending heading's line; the next non-skipped match closes
the pending section, whose children are the lines strictly between
(reparsed, with their trailing newlines so the slice ends in an empty
line); after the last match the remaining lines become the children. -/
def parseAuxF : Nat → List (List Char) → Nat → List Char → NodeList
  | 0, _, _, _ => .nil
  | f+1, rest, lv, heading =>
    match findHdg (isBreakLine lv) rest with
    | none => .cons (.sect heading true lv .Heading (parseLinesF f rest)) .nil
    | some (pre2, l2, post2) =>
      .cons (.sect heading true lv .Heading (parseLinesF f (pre2 ++ [[]])))
        (parseAuxF f post2 (headingParts l2).1
          (if post2.isEmpty then (headingParts l2).2 else (headingParts l2).2 ++ ['\n']))

end

/-- `parse(text)` of the source; the fuel is sufficient (strictly larger
than twice the measure, which bounds the recursion rank). -/
def parse (t : List Char) : NodeList :=
  parseLinesF (2 * lineMeasure (splitNl t) + 1) (splitNl t)

/-! ## The document (`Note`) -/

/-- The `Note` struct: cached full text, the root section, cached display
text (`repr`, what `as_str` returns). -/
structure Note where
  internal : List Char
  root : Node
  repr : List Char

/-- `self.root.children = ...`: replace the children, keep the rest. -/
def Node.withChildren : Node → NodeList → Node
  | .sect h e lv ty _, cs => .sect h e lv ty cs
  | .mstring t ty, _ => .mstring t ty

/-- `Note::new(content)`: default root (empty heading, expanded, level 0)
whose children are `parse(content)`; both caches start as `content`. -/
def Note.new (content : List Char) : Note :=
  { internal := content, root := .sect [] true 0 .None (parse content), repr := content }

/-- `Note::full()`. -/
def Note.full (n : Note) : List Char := n.internal

/-- `TextBuffer::insert_text`: try the fast in-place path; on failure
re-render the full text from the tree, splice at the translated position,
reparse, and recompute the display cache.  The fast path does not touch
`internal`. -/
def Note.insert_text (note : Note) (text : List Char) (idx : Nat) : Note :=
  match note.root.insert text idx with
  | some r => { note with root := r, repr := r.string false }
  | none =>
    let i2 := strSplice (note.root.string true) (note.root.translate idx) text
    let r := note.root.withChildren (parse i2)
    { internal := i2, root := r, repr := r.string false }

/-- `TextBuffer::delete_char_range`: always the slow path; re-render, drain
the translated range, reparse, recompute the display cache. -/
def Note.delete_char_range (note : Note) (s e : Nat) : Note :=
  let i1 := note.root.string true
  let i2 := i1.take (note.root.translate s) ++ i1.drop (note.root.translate e)
  let r := note.root.withChildren (parse i2)
  { internal := i2, root := r, repr := r.string false }

/-- The example document of the test suite and of the specification. -/
def specText : List Char := "# A\n## B\nbbbbb\n## C\nccccc".toList

/-- The root section of the example document. -/
def specRoot : Node := .sect [] true 0 .None (parse specText)

/-! ## Basic lemmas -/

theorem NodeList.strings_append : ∀ (a b : NodeList) (fl : Bool),
    (a.append b).strings fl = a.strings fl ++ b.strings fl
  | .nil, b, fl => by simp [NodeList.append, NodeList.strings]
  | .cons n ns, b, fl => by
    simp [NodeList.append, NodeList.strings, NodeList.strings_append ns b fl]

theorem splitNl_ne_nil (t : List Char) : splitNl t ≠ [] := by
  cases t with
  | nil => simp [splitNl]
  | cons c rest =>
    simp only [splitNl]
    split
    · simp
    · split <;> simp

/-- `joinNl` on a cons with a nonempty tail. -/
theorem joinNl_cons (l : List Char) (ls : List (List Char)) (h : ls ≠ []) :
    joinNl (l :: ls) = l ++ '\n' :: joinNl ls := by
  cases ls with
  | nil => exact absurd rfl h
  | cons l2 ls2 => rfl

theorem joinNl_splitNl (t : List Char) : joinNl (splitNl t) = t := by
  induction t with
  | nil => rfl
  | cons c rest ih =>
    simp only [splitNl]
    split
    · rename_i hc
      rw [joinNl_cons _ _ (splitNl_ne_nil rest), ih, hc]
      rfl
    · rename_i hc
      rcases hsp : splitNl rest with _ | ⟨l, ls⟩
      · exact absurd hsp (splitNl_ne_nil rest)
      · cases ls with
        | nil =>
          rw [hsp] at ih
          simpa [joinNl] using congrArg (c :: ·) ih
        | cons l2 ls2 =>
          rw [hsp] at ih
          rw [joinNl_cons _ _ (by simp)] at ih ⊢
          simpa using congrArg (c :: ·) ih

theorem joinNl_append (pre ls : List (List Char)) (h : ls ≠ []) :
    joinNl (pre ++ ls) = joinNlT pre ++ joinNl ls := by
  induction pre with
  | nil => simp [joinNlT]
  | cons p pre2 ih =>
    have hne : pre2 ++ ls ≠ [] := by
      cases ls with
      | nil => exact absurd rfl h
      | cons a b => simp
    rw [List.cons_append, joinNl_cons _ _ hne, ih, joinNlT]
    simp

theorem joinNl_pad (pre : List (List Char)) : joinNl (pre ++ [[]]) = joinNlT pre := by
  rw [joinNl_append pre [[]] (by simp)]
  simp [joinNl]

theorem lineMeasure_append (a b : List (List Char)) :
    lineMeasure (a ++ b) = lineMeasure a + lineMeasure b := by
  induction a with
  | nil => simp [lineMeasure]
  | cons l ls ih => simp [lineMeasure, ih]; omega

/-! ## Inline classifier: concatenation of the produced leaves -/


theorem twoOf_two_le (c : Char) (t : List Char) (h : twoOf c t = true) : 2 ≤ t.length := by
  match t with
  | [] => simp [twoOf] at h
  | [c1] => simp [twoOf] at h
  | c1 :: c2 :: rest => simp

theorem headIs_one_le (c : Char) (t : List Char) (h : headIs c t = true) : 1 ≤ t.length := by
  match t with
  | [] => simp [headIs] at h
  | c1 :: rest => simp

theorem boldAt_bounds (t : List Char) (l : Nat) (h : boldAt t = some l) :
    1 ≤ l ∧ l ≤ t.length := by
  unfold boldAt at h
  split at h
  · rename_i h2
    have ht : 2 ≤ t.length := twoOf_two_le _ _ h2
    split at h
    · exact absurd h (by simp)
    · split at h
      · rename_i hw h2b
        have hwle : ((t.drop 2).takeWhile (· != '*')).length ≤ (t.drop 2).length :=
          (List.takeWhile_prefix _).length_le
        have h2l : 2 ≤ (((t.drop 2)).drop ((t.drop 2).takeWhile (· != '*')).length).length :=
          twoOf_two_le _ _ h2b
        rw [List.length_drop, List.length_drop] at *
        simp only [Option.some.injEq] at h
        omega
      · exact absurd h (by simp)
  · exact absurd h (by simp)

theorem italAt_bounds (t : List Char) (l : Nat) (h : italAt t = some l) :
    1 ≤ l ∧ l ≤ t.length := by
  unfold italAt at h
  split at h
  · rename_i h1
    have ht : 1 ≤ t.length := headIs_one_le _ _ h1
    split at h
    · exact absurd h (by simp)
    · split at h
      · rename_i hw h1b
        have hwle : ((t.drop 1).takeWhile (· != '_')).length ≤ (t.drop 1).length :=
          (List.takeWhile_prefix _).length_le
        have h1l : 1 ≤ (((t.drop 1)).drop ((t.drop 1).takeWhile (· != '_')).length).length :=
          headIs_one_le _ _ h1b
        rw [List.length_drop, List.length_drop] at *
        simp only [Option.some.injEq] at h
        omega
      · exact absurd h (by simp)
  · exact absurd h (by simp)

theorem linkAt_bounds (t : List Char) (l : Nat) (h : linkAt t = some l) :
    1 ≤ l ∧ l ≤ t.length := by
  unfold linkAt at h
  split at h
  · rename_i h2
    have ht : 2 ≤ t.length := twoOf_two_le _ _ h2
    split at h
    · exact absurd h (by simp)
    · have hwle : ((t.drop 2).takeWhile isLinkChar).length ≤ (t.drop 2).length :=
        (List.takeWhile_prefix _).length_le
      rw [List.length_drop] at hwle
      simp only [Option.some.injEq] at h
      omega
  · exact absurd h (by simp)

theorem findPat_bounds (pat : List Char → Option Nat)
    (hb : ∀ u l, pat u = some l → 1 ≤ l ∧ l ≤ u.length) :
    ∀ (t : List Char) (s e : Nat), findPat pat t = some (s, e) → s < e ∧ e ≤ t.length
  | [], s, e, h => by
    simp only [findPat] at h
    cases hp : pat [] with
    | none => rw [hp] at h; simp at h
    | some l =>
      rw [hp] at h
      simp only [Option.map_some', Option.some.injEq, Prod.mk.injEq] at h
      obtain ⟨hs, he⟩ := h
      have := hb [] l hp
      simp only [List.length_nil] at this
      omega
  | c :: rest, s, e, h => by
    simp only [findPat] at h
    cases hp : pat (c :: rest) with
    | some l =>
      rw [hp] at h
      simp only [Option.some.injEq, Prod.mk.injEq] at h
      obtain ⟨hs, he⟩ := h
      have h2 := hb (c :: rest) l hp
      subst hs
      subst he
      exact ⟨by omega, h2.2⟩
    | none =>
      rw [hp] at h
      cases hf : findPat pat rest with
      | none => rw [hf] at h; simp at h
      | some p =>
        rw [hf] at h
        simp only [Option.map_some', Option.some.injEq] at h
        have ih := findPat_bounds pat hb rest p.1 p.2 (by rw [hf])
        rw [Prod.mk.injEq] at h
        obtain ⟨hs, he⟩ := h
        simp only [List.length_cons]
        omega

theorem pickMatch_prop {P : Nat → Nat → Prop} (acc : Option (Nat × Nat × MarkdownType))
    (cand : Option (Nat × Nat)) (ty : MarkdownType)
    (hacc : ∀ s e ty0, acc = some (s, e, ty0) → P s e)
    (hcand : ∀ s e, cand = some (s, e) → P s e) :
    ∀ s e ty1, pickMatch acc cand ty = some (s, e, ty1) → P s e := by
  intro s e ty1 h
  rcases cand with _ | ⟨cs, ce⟩
  · exact hacc s e ty1 (by simpa [pickMatch] using h)
  · rcases acc with _ | ⟨as0, ae0, aty0⟩
    · simp only [pickMatch, Option.some.injEq, Prod.mk.injEq] at h
      obtain ⟨h1, h2, h3⟩ := h
      subst h1
      subst h2
      exact hcand _ _ rfl
    · simp only [pickMatch] at h
      split at h
      · simp only [Option.some.injEq, Prod.mk.injEq] at h
        obtain ⟨h1, h2, h3⟩ := h
        subst h1
        subst h2
        exact hacc _ _ aty0 rfl
      · simp only [Option.some.injEq, Prod.mk.injEq] at h
        obtain ⟨h1, h2, h3⟩ := h
        subst h1
        subst h2
        exact hcand _ _ rfl

theorem firstMatch_bounds (t : List Char) (s e : Nat) (ty : MarkdownType)
    (h : firstMatch t = some (s, e, ty)) : s < e ∧ e ≤ t.length := by
  unfold firstMatch at h
  refine pickMatch_prop (P := fun s e => s < e ∧ e ≤ t.length) _ _ _ ?_ ?_ s e ty h
  · refine pickMatch_prop (P := fun s e => s < e ∧ e ≤ t.length) _ _ _ ?_ ?_
    · refine pickMatch_prop (P := fun s e => s < e ∧ e ≤ t.length) _ _ _ ?_ ?_
      · intro s e ty0 h0
        simp at h0
      · intro s e h0
        exact findPat_bounds boldAt boldAt_bounds t s e h0
    · intro s e h0
      exact findPat_bounds italAt italAt_bounds t s e h0
  · intro s e h0
    exact findPat_bounds linkAt linkAt_bounds t s e h0

theorem classifyF_strings : ∀ (f : Nat) (t : List Char), t.length < f →
    (classifyF f t).strings true = t
  | f+1, t, hf => by
    simp only [classifyF]
    cases hm : firstMatch t with
    | none =>
      by_cases hz : t.length = 0
      · rw [List.length_eq_zero] at hz
        subst hz
        simp [NodeList.strings]
      · simp [hz, NodeList.strings, Node.string]
    | some p =>
      obtain ⟨s, e, ty⟩ := p
      have hb := firstMatch_bounds t s e ty hm
      have ih := classifyF_strings f (t.drop e) (by rw [List.length_drop]; omega)
      rw [NodeList.strings_append]
      have hes : s + (e - s) = e := by omega
      by_cases hs : 0 < s
      · simp only [if_pos hs, NodeList.strings, ih, List.append_nil]
        calc t.take s ++ ((t.drop s).take (e - s) ++ t.drop e)
            = t.take s ++ ((t.drop s).take (e - s) ++ (t.drop s).drop (e - s)) := by
              rw [List.drop_drop]
              rw [hes]
          _ = t.take s ++ t.drop s := by rw [List.take_append_drop]
          _ = t := List.take_append_drop s t
      · have hs0 : s = 0 := by omega
        subst hs0
        simp only [if_neg hs, NodeList.strings, ih, List.append_nil, List.drop_zero,
          Nat.sub_zero, List.nil_append]
        exact List.take_append_drop e t

theorem classify_strings (t : List Char) : (classify t).strings true = t :=
  classifyF_strings (t.length + 1) t (Nat.lt_succ_self _)

theorem parseStringsLines_strings : ∀ ls : List (List Char),
    (parseStringsLines ls).strings true = joinNl ls
  | [] => by simp [parseStringsLines, chunksOf, joinNl, NodeList.strings]
  | [l] => by
    simp [parseStringsLines, chunksOf, joinNl, NodeList.strings_append, NodeList.strings,
      classify_strings l]
  | l :: l2 :: ls => by
    have ih := parseStringsLines_strings (l2 :: ls)
    simp only [parseStringsLines, chunksOf, List.foldr_cons, NodeList.strings_append,
      classify_strings] at ih ⊢
    rw [ih, joinNl_cons l (l2 :: ls) (by simp)]
    simp

/-! ## Block parser: round-trip lemmas -/

theorem isHeadingLine_two_le (l : List Char) (h : isHeadingLine l = true) : 2 ≤ l.length := by
  simp only [isHeadingLine, Bool.and_eq_true, decide_eq_true_eq] at h
  exact h.2

theorem headIs_of_isHeadingLine (l : List Char) (h : isHeadingLine l = true) :
    headIs '#' l = true := by
  simp only [isHeadingLine, Bool.and_eq_true] at h
  exact h.1

theorem takeWhile_hash (l : List Char) :
    l.takeWhile (· == '#') = List.replicate (headingLevel l) '#' := by
  have hmem : ∀ b ∈ l.takeWhile (· == '#'), b = '#' := by
    intro b hb
    have := List.mem_takeWhile_imp hb
    simpa using this
  exact List.eq_replicate_of_mem hmem

theorem headingLevel_pos (l : List Char) (hl : isHeadingLine l = true) : 1 ≤ headingLevel l := by
  have h := headIs_of_isHeadingLine l hl
  cases l with
  | nil => simp [headIs] at h
  | cons c rest =>
    simp only [headIs, beq_iff_eq] at h
    subst h
    simp [headingLevel, List.takeWhile_cons]

theorem drop_headingLevel (l : List Char) :
    l.drop (headingLevel l) = l.dropWhile (· == '#') := by
  have h := List.takeWhile_append_dropWhile (p := (· == '#')) (l := l)
  calc l.drop (headingLevel l)
      = (l.takeWhile (· == '#') ++ l.dropWhile (· == '#')).drop (headingLevel l) := by rw [h]
    _ = l.dropWhile (· == '#') := by
        rw [show headingLevel l = (l.takeWhile (· == '#')).length from rfl]
        exact List.drop_left _ _

/-- A heading line is its captured hash run followed by its captured title. -/
theorem headingParts_recon (l : List Char) (hl : isHeadingLine l = true) :
    hashRun (headingParts l).1 ++ (headingParts l).2 = l := by
  have htw := takeWhile_hash l
  have hone := headingLevel_pos l hl
  by_cases hc : headingLevel l = l.length
  · have hpre : l.takeWhile (· == '#') <+: l := List.takeWhile_prefix _
    have hlen : (l.takeWhile (· == '#')).length = l.length := by
      rw [htw, List.length_replicate, hc]
    have hrep : l = List.replicate (headingLevel l) '#' := by
      rw [← htw]
      exact (List.IsPrefix.eq_of_length hpre hlen).symm
    simp only [headingParts, if_pos hc, hashRun]
    rw [← List.replicate_succ', show headingLevel l - 1 + 1 = headingLevel l from by omega]
    exact hrep.symm
  · simp only [headingParts, if_neg hc, hashRun]
    rw [← htw, drop_headingLevel]
    exact List.takeWhile_append_dropWhile _ _

theorem findHdg_eq (p : List Char → Bool) :
    ∀ (ls pre : List (List Char)) (l : List Char) (post : List (List Char)),
      findHdg p ls = some (pre, l, post) → ls = pre ++ l :: post ∧ p l = true
  | [], pre, l, post, h => by simp [findHdg] at h
  | a :: ls2, pre, l, post, h => by
    simp only [findHdg] at h
    by_cases hp : p a
    · rw [if_pos hp] at h
      simp only [Option.some.injEq, Prod.mk.injEq] at h
      obtain ⟨h1, h2, h3⟩ := h
      subst h1; subst h2; subst h3
      exact ⟨rfl, hp⟩
    · rw [if_neg hp] at h
      cases hf : findHdg p ls2 with
      | none => rw [hf] at h; simp at h
      | some x =>
        rw [hf] at h
        simp only [Option.map_some', Option.some.injEq, Prod.mk.injEq] at h
        obtain ⟨h1, h2, h3⟩ := h
        obtain ⟨ih1, ih2⟩ := findHdg_eq p ls2 x.1 x.2.1 x.2.2 (by rw [hf])
        subst h1; subst h2; subst h3
        exact ⟨by rw [List.cons_append, ← ih1], ih2⟩

/-- Decomposition of a rejoined line list at a heading line. -/
theorem joinNl_decomp (pre : List (List Char)) (l : List Char) (post : List (List Char))
    (hl : isHeadingLine l = true) :
    joinNl (pre ++ l :: post) =
      joinNlT pre ++ hashRun (headingParts l).1 ++
        (if post.isEmpty then (headingParts l).2 else (headingParts l).2 ++ ['\n']) ++
        joinNl post := by
  rcases hhp : headingParts l with ⟨lv, tl⟩
  have hrec : hashRun lv ++ tl = l := by
    have := headingParts_recon l hl
    rw [hhp] at this
    exact this
  rw [joinNl_append pre (l :: post) (by simp)]
  cases post with
  | nil =>
    simp only [List.isEmpty_nil, if_true, joinNl, List.append_nil]
    rw [← hrec]
    simp [List.append_assoc]
  | cons q qs =>
    rw [joinNl_cons l (q :: qs) (by simp)]
    simp only [List.isEmpty_cons, if_false]
    rw [← hrec]
    simp [List.append_assoc]

theorem lineMeasure_split (pre : List (List Char)) (l : List Char) (post : List (List Char)) :
    lineMeasure (pre ++ l :: post) = lineMeasure pre + l.length + 1 + lineMeasure post := by
  rw [lineMeasure_append]
  simp [lineMeasure]
  omega

theorem lineMeasure_pad (pre : List (List Char)) :
    lineMeasure (pre ++ [[]]) = lineMeasure pre + 1 := by
  rw [lineMeasure_append]
  simp [lineMeasure]

theorem parse_roundtrip_fuel : ∀ f : Nat,
    (∀ ls, 2 * lineMeasure ls < f → (parseLinesF f ls).strings true = joinNl ls) ∧
    (∀ rest lv hd, 2 * lineMeasure rest + 1 < f →
      (parseAuxF f rest lv hd).strings true = hashRun lv ++ hd ++ joinNl rest) := by
  intro f
  induction f with
  | zero => exact ⟨fun ls h => absurd h (by omega), fun rest lv hd h => absurd h (by omega)⟩
  | succ f ih =>
    obtain ⟨ihL, ihA⟩ := ih
    constructor
    · intro ls hls
      simp only [parseLinesF]
      cases hfd : findHdg isHeadingLine ls with
      | none => exact parseStringsLines_strings ls
      | some x =>
        obtain ⟨pre, l, post⟩ := x
        obtain ⟨hsplit, hhead⟩ := findHdg_eq isHeadingLine ls pre l post hfd
        have hl2 : 2 ≤ l.length := isHeadingLine_two_le l hhead
        have hμ : lineMeasure ls = lineMeasure pre + l.length + 1 + lineMeasure post := by
          rw [hsplit]; exact lineMeasure_split pre l post
        rw [NodeList.strings_append]
        rw [ihA post (headingParts l).1
          (if post.isEmpty then (headingParts l).2 else (headingParts l).2 ++ ['\n'])
          (by omega)]
        have hpre : (if pre.isEmpty then NodeList.nil else parseStringsLines (pre ++ [[]])).strings true
            = joinNlT pre := by
          cases pre with
          | nil => simp [NodeList.strings, joinNlT]
          | cons a b =>
            rw [if_neg (by simp)]
            rw [parseStringsLines_strings, joinNl_pad]
        rw [hpre, hsplit, joinNl_decomp pre l post hhead]
        simp [List.append_assoc]
    · intro rest lv hd hrest
      simp only [parseAuxF]
      cases hfd : findHdg (isBreakLine lv) rest with
      | none =>
        simp only [NodeList.strings, Node.string, Bool.true_or, if_true, List.append_nil]
        rw [ihL rest (by omega)]
      | some x =>
        obtain ⟨pre2, l2, post2⟩ := x
        obtain ⟨hsplit, hbreak⟩ := findHdg_eq (isBreakLine lv) rest pre2 l2 post2 hfd
        have hhl : isHeadingLine l2 = true := by
          simp only [isBreakLine, Bool.and_eq_true] at hbreak
          exact hbreak.1
        have hl2 : 2 ≤ l2.length := isHeadingLine_two_le l2 hhl
        have hμ : lineMeasure rest = lineMeasure pre2 + l2.length + 1 + lineMeasure post2 := by
          rw [hsplit]; exact lineMeasure_split pre2 l2 post2
        simp only [NodeList.strings, Node.string, Bool.true_or, if_true, List.append_nil]
        rw [ihL (pre2 ++ [[]]) (by rw [lineMeasure_pad]; omega)]
        rw [ihA post2 (headingParts l2).1
          (if post2.isEmpty then (headingParts l2).2 else (headingParts l2).2 ++ ['\n'])
          (by omega)]
        rw [joinNl_pad, hsplit, joinNl_decomp pre2 l2 post2 hhl]
        simp [List.append_assoc]

/-- Serializing the parse of any line list with `full = true` rejoins the
lines: the fuel used by `parse` is sufficient. -/
theorem parse_strings_join (t : List Char) : (parse t).strings true = t := by
  have h := (parse_roundtrip_fuel (2 * lineMeasure (splitNl t) + 1)).1 (splitNl t) (by omega)
  rw [parse] at *
  rw [h, joinNl_splitNl]

/-! ## Length lemmas -/

mutual

theorem Node.len_le : (n : Node) → n.len false ≤ n.len true
  | .mstring t ty => Nat.le_refl _
  | .sect h e lv ty cs => by
    cases e
    · exact Nat.add_le_add_left (Nat.zero_le _) _
    · exact Nat.add_le_add_left (by simpa using NodeList.lensum_le cs) _

theorem NodeList.lensum_le : (ns : NodeList) → ns.lensum false ≤ ns.lensum true
  | .nil => Nat.le_refl _
  | .cons n ns => Nat.add_le_add (Node.len_le n) (NodeList.lensum_le ns)

end

mutual

theorem Node.len_eq_iff : (n : Node) → (n.len false = n.len true ↔ n.hidesNothing = true)
  | .mstring t ty => by simp [Node.len, Node.hidesNothing]
  | .sect h e lv ty cs => by
    cases e
    · simp only [Node.len, Node.hidesNothing, Bool.or_false, Bool.or_true, Bool.false_eq_true,
        if_false, if_true, Nat.add_zero, beq_iff_eq]
      omega
    · have hiff := NodeList.lensum_eq_iff cs
      simp only [Node.len, Node.hidesNothing, Bool.or_false, Bool.or_true, if_true]
      constructor
      · intro hl
        exact hiff.mp (by omega)
      · intro hh
        have := hiff.mpr hh
        omega

theorem NodeList.lensum_eq_iff : (ns : NodeList) →
    (ns.lensum false = ns.lensum true ↔ ns.hidesNothingAll = true)
  | .nil => by simp [NodeList.lensum, NodeList.hidesNothingAll]
  | .cons n ns => by
    have h1 := Node.len_le n
    have h2 := NodeList.lensum_le ns
    have i1 := Node.len_eq_iff n
    have i2 := NodeList.lensum_eq_iff ns
    simp only [NodeList.lensum, NodeList.hidesNothingAll, Bool.and_eq_true]
    constructor
    · intro hsum
      exact ⟨i1.mp (by omega), i2.mp (by omega)⟩
    · intro hx
      obtain ⟨ha, hb⟩ := hx
      have := i1.mpr ha
      have := i2.mpr hb
      omega

end

mutual

theorem Node.len_eq_of_noCollapsed : (n : Node) → n.noCollapsed = true → n.len false = n.len true
  | .mstring t ty, _ => rfl
  | .sect h e lv ty cs, hnc => by
    simp only [Node.noCollapsed, Bool.and_eq_true] at hnc
    obtain ⟨he, hcs⟩ := hnc
    subst he
    simp only [Node.len, Bool.true_or, if_true]
    rw [NodeList.lensum_eq_of_noCollapsedAll cs hcs]

theorem NodeList.lensum_eq_of_noCollapsedAll : (ns : NodeList) → ns.noCollapsedAll = true →
    ns.lensum false = ns.lensum true
  | .nil, _ => rfl
  | .cons n ns, hnc => by
    simp only [NodeList.noCollapsedAll, Bool.and_eq_true] at hnc
    simp only [NodeList.lensum, Node.len_eq_of_noCollapsed n hnc.1,
      NodeList.lensum_eq_of_noCollapsedAll ns hnc.2]

end

/-! ## Translation is the identity on fully expanded trees -/

mutual

theorem Node.translate_id : (n : Node) → n.noCollapsed = true → ∀ pos, n.translate pos = pos
  | .mstring t ty, _, pos => rfl
  | .sect h e lv ty cs, hnc, pos => by
    simp only [Node.noCollapsed, Bool.and_eq_true] at hnc
    obtain ⟨he, hcs⟩ := hnc
    subst he
    simp only [Node.translate]
    by_cases hcond : 0 < lv ∧ pos < lv + 1 + h.length
    · rw [if_pos hcond]
    · rw [if_neg hcond, if_pos trivial]
      have hcur : (if 0 < lv then lv + 1 + h.length else 0) ≤ pos := by
        by_cases hlv : 0 < lv
        · rw [if_pos hlv]
          omega
        · rw [if_neg hlv]
          omega
      rw [NodeList.transKids_id cs hcs pos _ 0 hcur]
      omega

theorem NodeList.transKids_id : (ns : NodeList) → ns.noCollapsedAll = true →
    ∀ pos cur offs, cur ≤ pos → ns.transKids pos cur offs = pos + offs
  | .nil, _, pos, cur, offs, _ => rfl
  | .cons n ns, hnc, pos, cur, offs, hcur => by
    simp only [NodeList.noCollapsedAll, Bool.and_eq_true] at hnc
    obtain ⟨hn, hns⟩ := hnc
    have hlen := Node.len_eq_of_noCollapsed n hn
    simp only [NodeList.transKids]
    split
    · rename_i hin
      rw [Node.translate_id n hn (pos - cur)]
      omega
    · rename_i hout
      rw [← hlen, Nat.sub_self, Nat.add_zero]
      exact NodeList.transKids_id ns hns pos (cur + n.len false) offs (by omega)

end

mutual

theorem Node.inv_translate_id : (n : Node) → n.noCollapsed = true →
    ∀ pos, pos ≤ n.len true → n.inv_translate pos = pos
  | .mstring t ty, _, pos, _ => rfl
  | .sect h e lv ty cs, hnc, pos, hle => by
    simp only [Node.noCollapsed, Bool.and_eq_true] at hnc
    obtain ⟨he, hcs⟩ := hnc
    subst he
    have hlen2 : (Node.sect h true lv ty cs).len true
        = (if 0 < lv then lv + h.length else 0) + cs.lensum true := by
      simp [Node.len]
    rw [hlen2] at hle
    simp only [Node.inv_translate]
    by_cases hcond : 0 < lv ∧ pos < lv + h.length
    · rw [if_pos hcond]
    · rw [if_neg hcond, if_pos trivial]
      have hcur : (if 0 < lv then lv + h.length else 0) ≤ pos := by
        by_cases hlv : 0 < lv
        · rw [if_pos hlv]
          omega
        · rw [if_neg hlv]
          omega
      exact NodeList.invKids_id cs hcs pos _ hcur (by omega)

theorem NodeList.invKids_id : (ns : NodeList) → ns.noCollapsedAll = true →
    ∀ pos cur, cur ≤ pos → pos ≤ cur + ns.lensum true → ns.invKids pos cur 0 = pos
  | .nil, _, pos, cur, hcur, hle => by
    simp only [NodeList.invKids, NodeList.lensum] at *
    omega
  | .cons n ns, hnc, pos, cur, hcur, hle => by
    simp only [NodeList.noCollapsedAll, Bool.and_eq_true] at hnc
    obtain ⟨hn, hns⟩ := hnc
    have hlen := Node.len_eq_of_noCollapsed n hn
    simp only [NodeList.lensum] at hle
    simp only [NodeList.invKids]
    split
    · rename_i hin
      rw [Node.inv_translate_id n hn (pos - cur) (by omega)]
      omega
    · rename_i hout
      rw [← hlen, Nat.sub_self, Nat.add_zero]
      refine NodeList.invKids_id ns hns pos (cur + n.len false) (by omega) (by omega)

end

/-! ## Markdown span concatenation -/

theorem mdTexts_append (a b : List MarkdownString) : mdTexts (a ++ b) = mdTexts a ++ mdTexts b := by
  induction a with
  | nil => simp [mdTexts]
  | cons m ms ih => simp [mdTexts, ih]

mutual

theorem Node.markdown_texts : (n : Node) → mdTexts n.markdown = n.string false
  | .mstring t ty => by simp [Node.markdown, Node.string, mdTexts]
  | .sect h e lv ty cs => by
    cases e
    · simp [Node.markdown, Node.string, mdTexts]
    · have ih := NodeList.markdownKids_texts cs
      simp [Node.markdown, Node.string, mdTexts, ih]

theorem NodeList.markdownKids_texts : (ns : NodeList) → mdTexts ns.markdownKids = ns.strings false
  | .nil => rfl
  | .cons n ns => by
    simp [NodeList.markdownKids, NodeList.strings, mdTexts_append,
      Node.markdown_texts n, NodeList.markdownKids_texts ns]

end

/-! ## Inline classifier: recognition of single spans -/

theorem NodeList.append_nil : ∀ a : NodeList, a.append .nil = a
  | .nil => rfl
  | .cons n ns => by rw [NodeList.append, NodeList.append_nil ns]

theorem splitNl_single : ∀ t : List Char, (∀ c ∈ t, c ≠ '\n') → splitNl t = [t]
  | [], _ => rfl
  | c :: rest, h => by
    simp only [splitNl]
    rw [if_neg (h c (by simp)), splitNl_single rest (fun x hx => h x (by simp [hx]))]

theorem parse_strings_nonl (t : List Char) (h : ∀ c ∈ t, c ≠ '\n') :
    parse_strings t = classify t := by
  unfold parse_strings parseStringsLines
  rw [splitNl_single t h]
  simp [chunksOf, NodeList.append_nil]

theorem takeWhile_all (p : Char → Bool) : ∀ w : List Char, (∀ c ∈ w, p c = true) →
    w.takeWhile p = w
  | [], _ => rfl
  | c :: w, h => by
    rw [List.takeWhile_cons, if_pos (h c (by simp)), takeWhile_all p w (fun x hx => h x (by simp [hx]))]

theorem takeWhile_all_stop (p : Char → Bool) : ∀ (w : List Char) (x : Char) (r : List Char),
    (∀ c ∈ w, p c = true) → p x = false → (w ++ x :: r).takeWhile p = w
  | [], x, r, _, hx => by simp [List.takeWhile_cons, hx]
  | c :: w, x, r, h, hx => by
    rw [List.cons_append, List.takeWhile_cons, if_pos (h c (by simp)),
      takeWhile_all_stop p w x r (fun d hd => h d (by simp [hd])) hx]

theorem twoOf_cons_cons (c : Char) (r : List Char) : twoOf c (c :: c :: r) = true := by
  simp [twoOf]

theorem twoOf_false_of_headIs (c : Char) (t : List Char) (h : headIs c t = false) :
    twoOf c t = false := by
  cases t with
  | nil => rfl
  | cons c1 r =>
    cases r with
    | nil => rfl
    | cons c2 r2 =>
      simp only [headIs] at h
      simp [twoOf, h]

theorem boldAt_exact (w r : List Char) (hne : w ≠ []) (hw : ∀ c ∈ w, c ≠ '*') :
    boldAt ('*' :: '*' :: (w ++ '*' :: '*' :: r)) = some (w.length + 4) := by
  have htw : ((('*' :: '*' :: (w ++ '*' :: '*' :: r)).drop 2).takeWhile (· != '*')) = w := by
    simp only [List.drop_succ_cons, List.drop_zero]
    exact takeWhile_all_stop _ w '*' ('*' :: r) (fun c hc => by simpa using hw c hc) (by simp)
  unfold boldAt
  rw [if_pos (twoOf_cons_cons '*' _), htw]
  rw [if_neg (by simpa using hne)]
  simp only [List.drop_succ_cons, List.drop_zero, List.drop_left]
  rw [if_pos (twoOf_cons_cons '*' r)]

theorem italAt_exact (w r : List Char) (hne : w ≠ []) (hw : ∀ c ∈ w, c ≠ '_') :
    italAt ('_' :: (w ++ '_' :: r)) = some (w.length + 2) := by
  have htw : ((('_' :: (w ++ '_' :: r)).drop 1).takeWhile (· != '_')) = w := by
    simp only [List.drop_succ_cons, List.drop_zero]
    exact takeWhile_all_stop _ w '_' r (fun c hc => by simpa using hw c hc) (by simp)
  unfold italAt
  rw [if_pos (by simp [headIs]), htw]
  rw [if_neg (by simpa using hne)]
  simp only [List.drop_succ_cons, List.drop_zero, List.drop_left]
  rw [if_pos (by simp [headIs])]

theorem linkAt_exact (w : List Char) (hne : w ≠ []) (hw : ∀ c ∈ w, isLinkChar c = true) :
    linkAt ('@' :: '@' :: w) = some (w.length + 2) := by
  have htw : ((('@' :: '@' :: w).drop 2).takeWhile isLinkChar) = w := by
    simp only [List.drop_succ_cons, List.drop_zero]
    exact takeWhile_all isLinkChar w hw
  unfold linkAt
  rw [if_pos (twoOf_cons_cons '@' _), htw]
  rw [if_neg (by simpa using hne)]

theorem boldAt_none (t : List Char) (h : headIs '*' t = false) : boldAt t = none := by
  unfold boldAt
  rw [if_neg (by simp [twoOf_false_of_headIs '*' t h])]

theorem italAt_none (t : List Char) (h : headIs '_' t = false) : italAt t = none := by
  unfold italAt
  rw [if_neg (by simp [h])]

theorem linkAt_none (t : List Char) (h : headIs '@' t = false) : linkAt t = none := by
  unfold linkAt
  rw [if_neg (by simp [twoOf_false_of_headIs '@' t h])]

theorem findPat_here (pat : List Char → Option Nat) (t : List Char) (l : Nat)
    (h : pat t = some l) : findPat pat t = some (0, l) := by
  cases t with
  | nil => simp [findPat, h]
  | cons c rest => simp [findPat, h]

theorem findPat_pos (pat : List Char → Option Nat) (t : List Char) (h0 : pat t = none) :
    ∀ s e, findPat pat t = some (s, e) → 1 ≤ s := by
  intro s e h
  cases t with
  | nil => rw [findPat, h0] at h; simp at h
  | cons c rest =>
    rw [findPat, h0] at h
    cases hf : findPat pat rest with
    | none => rw [hf] at h; simp at h
    | some p =>
      rw [hf] at h
      simp only [Option.map_some', Option.some.injEq] at h
      rw [Prod.mk.injEq] at h
      omega

theorem pickMatch_keep (e0 : Nat) (ty0 : MarkdownType) (cand : Option (Nat × Nat))
    (ty : MarkdownType) (hc : ∀ s e, cand = some (s, e) → 1 ≤ s) :
    pickMatch (some (0, e0, ty0)) cand ty = some (0, e0, ty0) := by
  cases cand with
  | none => rfl
  | some p =>
    obtain ⟨s, e⟩ := p
    have hs := hc s e rfl
    simp only [pickMatch]
    rw [if_pos (by omega)]

theorem pickMatch_take (acc : Option (Nat × Nat × MarkdownType)) (e : Nat) (ty : MarkdownType)
    (ha : ∀ s0 e0 ty0, acc = some (s0, e0, ty0) → 1 ≤ s0) :
    pickMatch acc (some (0, e)) ty = some (0, e, ty) := by
  cases acc with
  | none => rfl
  | some p =>
    obtain ⟨s0, e0, ty0⟩ := p
    have hs := ha s0 e0 ty0 rfl
    simp only [pickMatch]
    rw [if_neg (by omega)]

theorem firstMatch_bold (t : List Char) (e0 : Nat) (hb : findPat boldAt t = some (0, e0))
    (hi : ∀ s e, findPat italAt t = some (s, e) → 1 ≤ s)
    (hl : ∀ s e, findPat linkAt t = some (s, e) → 1 ≤ s) :
    firstMatch t = some (0, e0, .Bold) := by
  unfold firstMatch
  rw [hb, pickMatch_take none e0 .Bold (by simp),
    pickMatch_keep e0 .Bold (findPat italAt t) .Italic hi,
    pickMatch_keep e0 .Bold (findPat linkAt t) .Link hl]

theorem firstMatch_ital (t : List Char) (e0 : Nat)
    (hbn : ∀ s e, findPat boldAt t = some (s, e) → 1 ≤ s)
    (hi : findPat italAt t = some (0, e0))
    (hl : ∀ s e, findPat linkAt t = some (s, e) → 1 ≤ s) :
    firstMatch t = some (0, e0, .Italic) := by
  unfold firstMatch
  rw [hi]
  have hacc : ∀ s0 e1 ty0, pickMatch none (findPat boldAt t) .Bold = some (s0, e1, ty0) → 1 ≤ s0 := by
    intro s0 e1 ty0 hp
    cases hf : findPat boldAt t with
    | none => rw [hf] at hp; simp [pickMatch] at hp
    | some p =>
      rw [hf] at hp
      obtain ⟨ps, pe⟩ := p
      simp only [pickMatch, Option.some.injEq, Prod.mk.injEq] at hp
      have := hbn ps pe (by rw [hf])
      omega
  rw [pickMatch_take _ e0 .Italic hacc,
    pickMatch_keep e0 .Italic (findPat linkAt t) .Link hl]

theorem firstMatch_link (t : List Char) (e0 : Nat)
    (hbn : ∀ s e, findPat boldAt t = some (s, e) → 1 ≤ s)
    (hin : ∀ s e, findPat italAt t = some (s, e) → 1 ≤ s)
    (hl : findPat linkAt t = some (0, e0)) :
    firstMatch t = some (0, e0, .Link) := by
  unfold firstMatch
  rw [hl]
  have hacc1 : ∀ s0 e1 ty0, pickMatch none (findPat boldAt t) .Bold = some (s0, e1, ty0) → 1 ≤ s0 := by
    intro s0 e1 ty0 hp
    cases hf : findPat boldAt t with
    | none => rw [hf] at hp; simp [pickMatch] at hp
    | some p =>
      rw [hf] at hp
      obtain ⟨ps, pe⟩ := p
      simp only [pickMatch, Option.some.injEq, Prod.mk.injEq] at hp
      have := hbn ps pe (by rw [hf])
      omega
  have hacc2 : ∀ s0 e1 ty0,
      pickMatch (pickMatch none (findPat boldAt t) .Bold) (findPat italAt t) .Italic
        = some (s0, e1, ty0) → 1 ≤ s0 := by
    intro s0 e1 ty0 hp
    cases hf : findPat italAt t with
    | none =>
      rw [hf] at hp
      exact hacc1 s0 e1 ty0 (by simpa [pickMatch] using hp)
    | some p =>
      rw [hf] at hp
      obtain ⟨ps, pe⟩ := p
      have hpe := hin ps pe (by rw [hf])
      cases hacc : pickMatch none (findPat boldAt t) .Bold with
      | none =>
        rw [hacc] at hp
        simp only [pickMatch, Option.some.injEq, Prod.mk.injEq] at hp
        omega
      | some q =>
        rw [hacc] at hp
        obtain ⟨qs, qe, qty⟩ := q
        have hqs := hacc1 qs qe qty (by rw [hacc])
        simp only [pickMatch] at hp
        split at hp
        · simp only [Option.some.injEq, Prod.mk.injEq] at hp
          omega
        · simp only [Option.some.injEq, Prod.mk.injEq] at hp
          omega
  exact pickMatch_take _ e0 .Link hacc2

theorem classifyF_nil : ∀ f : Nat, classifyF f [] = .nil
  | 0 => rfl
  | f+1 => by
    have h : firstMatch [] = none := rfl
    simp [classifyF, h]

theorem classify_single (t : List Char) (ty : MarkdownType)
    (hfm : firstMatch t = some (0, t.length, ty)) :
    classify t = .cons (.mstring t ty) .nil := by
  unfold classify
  rw [show t.length + 1 = t.length + 1 from rfl]
  simp only [classifyF, hfm]
  rw [if_neg (by omega)]
  simp only [List.drop_zero, Nat.sub_zero, List.take_length, List.drop_length, classifyF_nil,
    NodeList.append]

theorem parse_strings_bold (w : List Char) (hne : w ≠ []) (hw : ∀ c ∈ w, c ≠ '*' ∧ c ≠ '\n') :
    parse_strings ('*' :: '*' :: (w ++ ['*', '*'])) =
      .cons (.mstring ('*' :: '*' :: (w ++ ['*', '*'])) .Bold) .nil := by
  have hnl : ∀ c ∈ ('*' :: '*' :: (w ++ ['*', '*'])), c ≠ '\n' := by
    intro c hc
    simp only [List.mem_cons, List.mem_append] at hc
    rcases hc with h | h | h | h
    · subst h; decide
    · subst h; decide
    · exact (hw c h).2
    · simp only [List.mem_cons, List.not_mem_nil] at h
      rcases h with h | h | h
      · subst h; decide
      · subst h; decide
      · exact absurd h (by simp)
  rw [parse_strings_nonl _ hnl]
  have hba : boldAt ('*' :: '*' :: (w ++ ['*', '*'])) = some (w.length + 4) :=
    boldAt_exact w [] hne (fun c hc => (hw c hc).1)
  have hlen : ('*' :: '*' :: (w ++ ['*', '*'])).length = w.length + 4 := by simp
  refine classify_single _ _ ?_
  refine firstMatch_bold _ _ (by rw [findPat_here boldAt _ _ hba, hlen]) ?_ ?_
  · exact findPat_pos italAt _ (italAt_none _ (by simp [headIs]))
  · exact findPat_pos linkAt _ (linkAt_none _ (by simp [headIs]))

theorem parse_strings_ital (w : List Char) (hne : w ≠ []) (hw : ∀ c ∈ w, c ≠ '_' ∧ c ≠ '\n') :
    parse_strings ('_' :: (w ++ ['_'])) =
      .cons (.mstring ('_' :: (w ++ ['_'])) .Italic) .nil := by
  have hnl : ∀ c ∈ ('_' :: (w ++ ['_'])), c ≠ '\n' := by
    intro c hc
    simp only [List.mem_cons, List.mem_append] at hc
    rcases hc with h | h | h
    · subst h; decide
    · exact (hw c h).2
    · simp only [List.mem_cons, List.not_mem_nil] at h
      rcases h with h | h
      · subst h; decide
      · exact absurd h (by simp)
  rw [parse_strings_nonl _ hnl]
  have hia : italAt ('_' :: (w ++ ['_'])) = some (w.length + 2) :=
    italAt_exact w [] hne (fun c hc => (hw c hc).1)
  have hlen : ('_' :: (w ++ ['_'])).length = w.length + 2 := by simp
  refine classify_single _ _ ?_
  refine firstMatch_ital _ _ ?_ (by rw [findPat_here italAt _ _ hia, hlen]) ?_
  · exact findPat_pos boldAt _ (boldAt_none _ (by simp [headIs]))
  · exact findPat_pos linkAt _ (linkAt_none _ (by simp [headIs]))

theorem parse_strings_link (w : List Char) (hne : w ≠ []) (hw : ∀ c ∈ w, isLinkChar c = true) :
    parse_strings ('@' :: '@' :: w) = .cons (.mstring ('@' :: '@' :: w) .Link) .nil := by
  have hnl : ∀ c ∈ ('@' :: '@' :: w), c ≠ '\n' := by
    intro c hc
    simp only [List.mem_cons] at hc
    rcases hc with h | h | h
    · subst h; decide
    · subst h; decide
    · have := hw c h
      intro hceq
      subst hceq
      simp [isLinkChar] at this
  rw [parse_strings_nonl _ hnl]
  have hla : linkAt ('@' :: '@' :: w) = some (w.length + 2) := linkAt_exact w hne hw
  have hlen : ('@' :: '@' :: w).length = w.length + 2 := by simp
  refine classify_single _ _ ?_
  refine firstMatch_link _ _ ?_ ?_ (by rw [findPat_here linkAt _ _ hla, hlen])
  · exact findPat_pos boldAt _ (boldAt_none _ (by simp [headIs]))
  · exact findPat_pos italAt _ (italAt_none _ (by simp [headIs]))

/-! ## Slow-path cache consistency -/

theorem insert_text_slow (note : Note) (text : List Char) (idx : Nat)
    (hfail : note.root.insert text idx = none) :
    note.insert_text text idx =
      { internal := strSplice (note.root.string true) (note.root.translate idx) text,
        root := note.root.withChildren
          (parse (strSplice (note.root.string true) (note.root.translate idx) text)),
        repr := (note.root.withChildren
          (parse (strSplice (note.root.string true) (note.root.translate idx) text))).string false } := by
  unfold Note.insert_text
  rw [hfail]

theorem withChildren_string_true (e : Bool) (ty : MarkdownType) (cs : NodeList) (i : List Char) :
    ((Node.sect [] e 0 ty cs).withChildren (parse i)).string true = i := by
  have h := parse_strings_join i
  simp [Node.withChildren, Node.string, hashRun, h]

/-! ## Claims -/

/-- Claim C1: for every input string T, serializing the result of `parse(T)`
with `full = true` reproduces T exactly — same hash-run lengths, same
whitespace, same newline placement — including every pathological input
(no heading, empty heading title, levels that decrease then increase, a
single heading with no trailing content). -/
theorem claim_C1_roundtrip (T : List Char) :
    (Node.sect [] true 0 .None (parse T)).string true = T := by
  have h := parse_strings_join T
  simp [Node.string, hashRun, h]

/-- Claim C2, counterexample: after a fast-path insert the cached full text
(`Note.internal`, returned by `full()`) is stale: inserting "b" at display
index 0 of the note built from "a" leaves `internal = "a"` while the tree
serializes (fully expanded) to "ba". -/
theorem claim_C2_counterexample :
    ((Note.new ['a']).insert_text ['b'] 0).internal ≠
      (((Note.new ['a']).insert_text ['b'] 0).root.string true) := by decide

/-- Claim C2, amended: the invariant `internal = string(tree, true)` holds
after `insert_text` whenever the fast path fails (the slow path runs), and
after every `delete_char_range`; a successful fast-path insert does not
update `internal` (see the counterexample). -/
theorem claim_C2_amended (e : Bool) (ty : MarkdownType) (cs : NodeList)
    (internal0 repr0 : List Char) :
    (∀ text idx, (Node.sect [] e 0 ty cs).insert text idx = none →
      ((Note.mk internal0 (.sect [] e 0 ty cs) repr0).insert_text text idx).internal =
        (((Note.mk internal0 (.sect [] e 0 ty cs) repr0).insert_text text idx).root.string true))
    ∧ (∀ s t, ((Note.mk internal0 (.sect [] e 0 ty cs) repr0).delete_char_range s t).internal =
        (((Note.mk internal0 (.sect [] e 0 ty cs) repr0).delete_char_range s t).root.string true)) := by
  constructor
  · intro text idx hfail
    rw [insert_text_slow _ text idx hfail]
    exact (withChildren_string_true e ty cs _).symm
  · intro s t
    unfold Note.delete_char_range
    exact (withChildren_string_true e ty cs _).symm

/-- Claim C2, witness: a concrete slow-path insert (into the hash marker of
"# A", where the fast path fails) and a concrete delete both leave
`internal` equal to the full serialization of the new tree. -/
theorem claim_C2_witness :
    ((Note.new "# A".toList).insert_text "x".toList 0).internal =
      (((Note.new "# A".toList).insert_text "x".toList 0).root.string true) ∧
    ((Note.new "# A".toList).delete_char_range 0 2).internal =
      (((Note.new "# A".toList).delete_char_range 0 2).root.string true) := by
  have h := claim_C2_amended true .None (parse "# A".toList) "# A".toList "# A".toList
  exact ⟨h.1 "x".toList 0 (by decide), h.2 0 2⟩

/-- Claim C3, counterexample: on the document parsed from
"# A\n## B\nbbbbb\n## C\nccccc" with `[0,0]` collapsed, the display index 9
(within `[0, len(display)] = [0, 19]`) does not round-trip:
`inv_translate (translate 9) = 8 ≠ 9`. -/
theorem claim_C3_counterexample :
    (specRoot.collapse [0, 0]).map
        (fun t => (t.inv_translate (t.translate 9), t.len false)) = some (8, 19) ∧
      (8 : Nat) ≠ 9 ∧ (9 : Nat) ≤ 19 := by decide

/-- Claim C3, amended: for every tree in which every section is expanded
and every display index `d ≤ len(display)`,
`inv_translate (translate d) = d`. -/
theorem claim_C3_amended (n : Node) (d : Nat) (hnc : n.noCollapsed = true)
    (hd : d ≤ n.len false) : n.inv_translate (n.translate d) = d := by
  rw [Node.translate_id n hnc d]
  refine Node.inv_translate_id n hnc d ?_
  rw [← Node.len_eq_of_noCollapsed n hnc]
  exact hd

/-- Claim C3, witness: the amended statement applied to the fully expanded
example document at display index 10. -/
theorem claim_C3_witness :
    specRoot.noCollapsed = true ∧ 10 ≤ specRoot.len false ∧
      specRoot.inv_translate (specRoot.translate 10) = 10 :=
  ⟨by decide, by decide, claim_C3_amended specRoot 10 (by decide) (by decide)⟩

/-- Claim C4, counterexample: inserting "#" at display index 4 of the note
built from "# A\n\na\n" succeeds on the fast path, so no reparse happens
and `full()` (the `internal` cache) still holds the old text
"# A\n\na\n", not "# A\n#\na\n". -/
theorem claim_C4_counterexample :
    ((Note.new "# A\n\na\n".toList).insert_text "#".toList 4).internal ≠ "# A\n#\na\n".toList ∧
    Note.full ((Note.new "# A\n\na\n".toList).insert_text "#".toList 4) = "# A\n\na\n".toList := by
  decide

/-- Claim C4, amended: inserting "#" at display index 4 of the note built
from "# A\n\na\n" takes the fast path; the display cache (`repr`, what
`as_str` returns — the value the Rust test asserts) becomes
"# A\n#\na\n", while `full()` keeps the pre-insert text. -/
theorem claim_C4_amended :
    ((Note.new "# A\n\na\n".toList).insert_text "#".toList 4).repr = "# A\n#\na\n".toList ∧
    ((Note.new "# A\n\na\n".toList).insert_text "#".toList 4).internal = "# A\n\na\n".toList := by
  decide

/-- Claim C5, counterexample: `collapse` with the empty path on the level-0
root is not a no-op: it clears the `expanded` flag (true becomes false). -/
theorem claim_C5_counterexample :
    ((Node.sect [] true 0 .None .nil).collapse []).map Node.expandedB = some false ∧
      false ≠ true := by decide

/-- Claim C5, amended: with the empty path on a level-0 section, `toggle`
is a no-op (flag unchanged, no panic), while `collapse` sets the flag to
false and `expand` sets it to true (also without error) regardless of the
previous value; only `toggle` checks for the root. -/
theorem claim_C5_amended (h : List Char) (e : Bool) (ty : MarkdownType) (cs : NodeList) :
    (Node.sect h e 0 ty cs).toggle [] = some (.sect h e 0 ty cs) ∧
    (Node.sect h e 0 ty cs).collapse [] = some (.sect h false 0 ty cs) ∧
    (Node.sect h e 0 ty cs).expand [] = some (.sect h true 0 ty cs) := by
  refine ⟨?_, rfl, rfl⟩
  simp [Node.toggle]

/-- Claim C6: on the document parsed from "# A\n## B\nbbbbb\n## C\nccccc"
with `[0,0]` collapsed, `insert("d", 15)` succeeds in place, keeps the
section at `[0,0]` collapsed, and the display serialization becomes
"# A\n## B\n## C\ncdcccc". -/
theorem claim_C6_fast_insert :
    ((specRoot.collapse [0, 0]).bind (fun t => t.insert "d".toList 15)).map
        (fun t => (t.string false, t.expandedAt [0, 0])) =
      some ("# A\n## B\n## C\ncdcccc".toList, some false) := by decide

/-- Claim C7: on the document parsed from "# A\n## B\nbbbbb\n## C\nccccc"
with `[0,0]` collapsed, `translate 10 = 16`, `inv_translate 11 = 8` and
`inv_translate 17 = 11`. -/
theorem claim_C7_translate :
    (specRoot.collapse [0, 0]).map
        (fun t => (t.translate 10, t.inv_translate 11, t.inv_translate 17)) =
      some (16, 8, 11) := by decide

/-- Claim C8, counterexample: a collapsed section with no children has
`len(false) = len(true)` although its subtree does contain a collapsed
descendant (itself), refuting the claimed equivalence. -/
theorem claim_C8_counterexample :
    (Node.sect " A\n".toList false 1 .Heading .nil).len false =
      (Node.sect " A\n".toList false 1 .Heading .nil).len true ∧
    (Node.sect " A\n".toList false 1 .Heading .nil).noCollapsed = false := by decide

/-- Claim C8, amended: for every node, `len(false) ≤ len(true)`, with
equality iff every collapsed section in the subtree hides no content (the
total full length of its children is 0). -/
theorem claim_C8_amended (n : Node) :
    n.len false ≤ n.len true ∧ (n.len false = n.len true ↔ n.hidesNothing = true) :=
  ⟨Node.len_le n, Node.len_eq_iff n⟩

/-- Claim C9, counterexample: the bold pattern does not allow a single
asterisk inside the pair of double-asterisk markers: "**a*b**" is emitted
as one plain Paragraph leaf, not a Bold leaf. -/
theorem claim_C9_counterexample :
    parse_strings "**a*b**".toList = .cons (.mstring "**a*b**".toList .Paragraph) .nil ∧
      MarkdownType.Paragraph ≠ MarkdownType.Bold := by decide

/-- Claim C9, amended: the classifier emits one typed leaf for a maximal
span: bold is a pair of double-asterisk markers whose interior is nonempty
and contains no asterisk at all (and no newline, which ends the scanned
chunk); italic is a pair of underscores with an interior free of
underscores; link is the two-character `@@` marker followed by a nonempty
token of letters, digits, underscore, hyphen, slash, or backslash. -/
theorem claim_C9_amended :
    (∀ w : List Char, w ≠ [] → (∀ c ∈ w, c ≠ '*' ∧ c ≠ '\n') →
      parse_strings ('*' :: '*' :: (w ++ ['*', '*'])) =
        .cons (.mstring ('*' :: '*' :: (w ++ ['*', '*'])) .Bold) .nil) ∧
    (∀ w : List Char, w ≠ [] → (∀ c ∈ w, c ≠ '_' ∧ c ≠ '\n') →
      parse_strings ('_' :: (w ++ ['_'])) =
        .cons (.mstring ('_' :: (w ++ ['_'])) .Italic) .nil) ∧
    (∀ w : List Char, w ≠ [] → (∀ c ∈ w, isLinkChar c = true) →
      parse_strings ('@' :: '@' :: w) = .cons (.mstring ('@' :: '@' :: w) .Link) .nil) :=
  ⟨parse_strings_bold, parse_strings_ital, parse_strings_link⟩

/-- Claim C9, witness: the amended statement instantiated at "**ab**",
"_ab_" and "@@a/b". -/
theorem claim_C9_witness :
    parse_strings ('*' :: '*' :: (['a', 'b'] ++ ['*', '*'])) =
      .cons (.mstring ('*' :: '*' :: (['a', 'b'] ++ ['*', '*'])) .Bold) .nil ∧
    parse_strings ('_' :: (['a', 'b'] ++ ['_'])) =
      .cons (.mstring ('_' :: (['a', 'b'] ++ ['_'])) .Italic) .nil ∧
    parse_strings ('@' :: '@' :: ['a', '/', 'b']) =
      .cons (.mstring ('@' :: '@' :: ['a', '/', 'b']) .Link) .nil :=
  ⟨claim_C9_amended.1 ['a', 'b'] (by decide) (by decide),
   claim_C9_amended.2.1 ['a', 'b'] (by decide) (by decide),
   claim_C9_amended.2.2 ['a', '/', 'b'] (by decide) (by decide)⟩

/-- Claim C10: the span list of `markdown()` on a document root (level 0,
empty heading) always begins with a Heading-kind span whose text is empty,
and for every tree the concatenation of the texts of all returned spans
equals the collapse-aware serialization `string(false)`. -/
theorem claim_C10_markdown :
    (∀ (e : Bool) (ty : MarkdownType) (cs : NodeList),
      ((Node.sect [] e 0 ty cs).markdown).head? = some ⟨[], .Heading⟩) ∧
    (∀ n : Node, mdTexts n.markdown = n.string false) := by
  constructor
  · intro e ty cs
    simp [Node.markdown, hashRun]
  · exact Node.markdown_texts
